import Mathlib

/-! Verification of the vanity-address generator (src/main.rs).

Strings of the Rust program are modelled as lists of characters; byte-level
operations (Rust slices strings by UTF-8 byte index) are modelled through an
explicit byte-length function on characters. Fallible operations (Rust panics)
return Option. -/

namespace VanityEth

/-- UTF-8 encoded length in bytes of one character, as in Rust strings. -/
def utf8Len (c : Char) : Nat :=
  if c.val < 0x80 then 1 else if c.val < 0x800 then 2 else if c.val < 0x10000 then 3 else 4

/-- Total UTF-8 byte length of a string (Rust str::len). -/
def byteLen (s : List Char) : Nat := (s.map utf8Len).sum

/-- Rust byte slicing s[n..]: drops the first n bytes of the UTF-8 encoding.
Returns none (the Rust code panics) when the string is shorter than n bytes or
when byte index n is not a character boundary. -/
def sliceFromByte : Nat → List Char → Option (List Char)
  | 0, s => some s
  | _ + 1, [] => none
  | n + 1, c :: cs =>
      if utf8Len c ≤ n + 1 then sliceFromByte (n + 1 - utf8Len c) cs else none

/-- Rust str::to_lowercase, on the ASCII range relevant to hex addresses. -/
def to_lowercase (s : List Char) : List Char := s.map Char.toLower

/-- Rust str::starts_with for a string pattern. -/
def startsWith (s p : List Char) : Bool := s.take p.length == p

/-- Rust str::ends_with for a string pattern. -/
def endsWith (s p : List Char) : Bool := s.drop (s.length - p.length) == p

/-- main.rs lines 52-68, matches_criteria: strips the first two bytes of the
address (the Rust code slices address[2..], which panics on shorter input,
modelled by none), then requires the lowercased body to start with the
lowercased first pattern when present and to end with the lowercased second
pattern when present. -/
def matches_criteria (address : List Char) (pfx sfx : Option (List Char)) : Option Bool :=
  match sliceFromByte 2 address with
  | none => none
  | some addr_without_pfx =>
      some (
        (match pfx with
          | some p => startsWith (to_lowercase addr_without_pfx) (to_lowercase p)
          | none => true)
        &&
        (match sfx with
          | some suf => endsWith (to_lowercase addr_without_pfx) (to_lowercase suf)
          | none => true))

theorem utf8Len_pos (c : Char) : 0 < utf8Len c := by
  unfold utf8Len
  split_ifs <;> norm_num

theorem byteLen_cons (c : Char) (cs : List Char) :
    byteLen (c :: cs) = utf8Len c + byteLen cs := by
  simp [byteLen]

theorem byteLen_eq_zero {cs : List Char} (h : byteLen cs = 0) : cs = [] := by
  cases cs with
  | nil => rfl
  | cons c cs =>
      rw [byteLen_cons] at h
      have := utf8Len_pos c
      omega

/-- C1: on a 0x-prefixed address, matches_criteria returns exactly the
conjunction of "lowercased body starts with the lowercased first pattern when
present" and "lowercased body ends with the lowercased second pattern when
present"; an absent pattern contributes true, and with both patterns absent the
result is true for every address body. -/
theorem matches_criteria_spec (body : List Char) (pfx sfx : Option (List Char)) :
    matches_criteria ('0' :: 'x' :: body) pfx sfx =
      some ((pfx.all fun p => startsWith (to_lowercase body) (to_lowercase p)) &&
            (sfx.all fun suf => endsWith (to_lowercase body) (to_lowercase suf))) ∧
    matches_criteria ('0' :: 'x' :: body) none none = some true := by
  have hslice : sliceFromByte 2 ('0' :: 'x' :: body) = some body := by
    simp [sliceFromByte, utf8Len]
  constructor
  · unfold matches_criteria
    rw [hslice]
    cases pfx <;> cases sfx <;> simp [Option.all]
  · unfold matches_criteria
    rw [hslice]
    rfl

/-- C8: matches_criteria is invariant under changing the letter case of the
patterns: criteria that agree after lowercasing give the same result on every
address. -/
theorem matches_criteria_case_insensitive (address : List Char)
    (pfx1 pfx2 sfx1 sfx2 : Option (List Char))
    (hp : pfx1.map to_lowercase = pfx2.map to_lowercase)
    (hs : sfx1.map to_lowercase = sfx2.map to_lowercase) :
    matches_criteria address pfx1 sfx1 = matches_criteria address pfx2 sfx2 := by
  unfold matches_criteria
  cases hsl : sliceFromByte 2 address with
  | none => rfl
  | some body =>
      cases pfx1 <;> cases pfx2 <;> cases sfx1 <;> cases sfx2 <;>
        simp_all

/-- C8 witness: the criteria AB and ab decide the address 0xab12 identically. -/
theorem matches_criteria_case_insensitive_witness :
    matches_criteria ('0' :: 'x' :: 'a' :: 'b' :: '1' :: '2' :: [])
        (some ('A' :: 'B' :: [])) (some ('1' :: '2' :: [])) =
      matches_criteria ('0' :: 'x' :: 'a' :: 'b' :: '1' :: '2' :: [])
        (some ('a' :: 'b' :: [])) (some ('1' :: '2' :: [])) :=
  matches_criteria_case_insensitive _ _ _ _ _ (by decide) (by decide)

/-- C9: matches_criteria is partial at the slicing step: on any input whose
UTF-8 byte length is below 2 the byte slice address[2..] fails, so the function
panics (none) regardless of the criteria. -/
theorem matches_criteria_short_input (address : List Char) (pfx sfx : Option (List Char))
    (h : byteLen address < 2) :
    sliceFromByte 2 address = none ∧ matches_criteria address pfx sfx = none := by
  have hsl : sliceFromByte 2 address = none := by
    cases address with
    | nil => rfl
    | cons c cs =>
        rw [byteLen_cons] at h
        have hpos := utf8Len_pos c
        have hc1 : utf8Len c = 1 := by omega
        have hcs : byteLen cs = 0 := by omega
        have : cs = [] := byteLen_eq_zero hcs
        subst this
        simp [sliceFromByte, hc1]
  refine ⟨hsl, ?_⟩
  unfold matches_criteria
  rw [hsl]

/-- C9 witness: the one-character address 0 panics in matches_criteria. -/
theorem matches_criteria_short_input_witness :
    sliceFromByte 2 ('0' :: []) = none ∧
    matches_criteria ('0' :: []) none none = none :=
  matches_criteria_short_input ('0' :: []) none none (by decide)

/-- The order of the secp256k1 scalar group. The SecretKey values produced by
the secp256k1 crate are guaranteed to be nonzero and below this bound. -/
def secp256k1_order : Nat :=
  0xFFFFFFFFFFFFFFFFFFFFFFFFFFFFFFFEBAAEDCE6AF48A03BBFD25E8CD0364141

/-- main.rs lines 32-36: a generated key pair, the secret scalar together with
the derived address string. -/
structure KeyPair where
  private_key : Nat
  address : List Char
  deriving DecidableEq

/-- One lowercase hex digit, as produced by Rust lowercase hex formatting. -/
def hexDigit (n : Nat) : Char := if n < 10 then Char.ofNat (48 + n) else Char.ofNat (87 + n)

/-- Lowercase hex encoding of a byte sequence, two digits per byte, as the
LowerHex formatting of an H160 value prints all its bytes. -/
def bytesToHex : List Nat → List Char
  | [] => []
  | b :: bs => hexDigit (b / 16) :: hexDigit (b % 16) :: bytesToHex bs

/-- Character class of the lowercase hexadecimal digits. -/
def isLowerHexDigit (c : Char) : Bool :=
  (('0' ≤ c) && (c ≤ '9')) || (('a' ≤ c) && (c ≤ 'f'))

/-- main.rs lines 38-50, generate_key_pair: the external collaborators are
passed as parameters: sk is the secret scalar sampled by SecretKey::new
(the secp256k1 crate retries internally until the scalar is valid), pubkeySer
gives the 65-byte uncompressed serialization of the derived public key, and
keccak is Keccak256::digest (32-byte output). The code hashes the public key
bytes without their leading format byte, takes digest bytes 12..32, and formats
them as 0x followed by lowercase hex. -/
def generate_key_pair (keccak : List Nat → List Nat) (pubkeySer : Nat → List Nat)
    (sk : Nat) : KeyPair :=
  let public_key_bytes := pubkeySer sk
  let public_key_hash := keccak (public_key_bytes.drop 1)
  let addr_bytes := (public_key_hash.drop 12).take 20
  { private_key := sk, address := '0' :: 'x' :: bytesToHex addr_bytes }

theorem bytesToHex_length (bs : List Nat) : (bytesToHex bs).length = 2 * bs.length := by
  induction bs with
  | nil => rfl
  | cons b bs ih => simp [bytesToHex, ih]; omega

theorem hexDigit_isLowerHexDigit {n : Nat} (h : n < 16) :
    isLowerHexDigit (hexDigit n) = true := by
  interval_cases n <;> decide

theorem bytesToHex_mem_isLowerHexDigit {bs : List Nat} (hb : ∀ b ∈ bs, b < 256) :
    ∀ c ∈ bytesToHex bs, isLowerHexDigit c = true := by
  induction bs with
  | nil => intro c hc; simp [bytesToHex] at hc
  | cons b bs ih =>
      intro c hc
      have hblt : b < 256 := hb b (by simp)
      have h1 : b / 16 < 16 := by omega
      have h2 : b % 16 < 16 := Nat.mod_lt _ (by norm_num)
      simp only [bytesToHex, List.mem_cons] at hc
      rcases hc with rfl | rfl | hc
      · exact hexDigit_isLowerHexDigit h1
      · exact hexDigit_isLowerHexDigit h2
      · exact ih (fun x hx => hb x (by simp [hx])) c hc

/-- C2: under the contracts of the external collaborators (valid secret scalar,
32-byte Keccak-256 digest), generate_key_pair returns the sampled scalar
unchanged as the private key (hence nonzero and below the curve order), and
its address is 0x followed by the lowercase hex encoding of digest bytes
12..32 of the Keccak-256 hash of the uncompressed public key bytes without the
leading format byte; that hex body has exactly 40 lowercase hex characters. -/
theorem generate_key_pair_spec (keccak : List Nat → List Nat) (pubkeySer : Nat → List Nat)
    (sk : Nat) (hsk : 0 < sk ∧ sk < secp256k1_order)
    (hlen : (keccak ((pubkeySer sk).drop 1)).length = 32)
    (hbytes : ∀ b ∈ keccak ((pubkeySer sk).drop 1), b < 256) :
    0 < (generate_key_pair keccak pubkeySer sk).private_key ∧
    (generate_key_pair keccak pubkeySer sk).private_key < secp256k1_order ∧
    (generate_key_pair keccak pubkeySer sk).address =
      '0' :: 'x' :: bytesToHex (((keccak ((pubkeySer sk).drop 1)).drop 12).take 20) ∧
    (bytesToHex (((keccak ((pubkeySer sk).drop 1)).drop 12).take 20)).length = 40 ∧
    (∀ c ∈ bytesToHex (((keccak ((pubkeySer sk).drop 1)).drop 12).take 20),
      isLowerHexDigit c = true) := by
  refine ⟨hsk.1, hsk.2, rfl, ?_, ?_⟩
  · rw [bytesToHex_length, List.length_take, List.length_drop, hlen]
    omega
  · refine bytesToHex_mem_isLowerHexDigit ?_
    intro b hbm
    exact hbytes b (List.drop_subset 12 _ (List.take_subset 20 _ hbm))

/-- A stand-in digest function used to evaluate the model at concrete inputs. -/
def keccak_test : List Nat → List Nat := fun _ => List.range 32

/-- A stand-in public-key serializer used to evaluate the model. -/
def pubkey_ser_test : Nat → List Nat := fun _ => List.replicate 65 0

/-- C2 witness: the contract evaluated at a concrete scalar and digest. -/
theorem generate_key_pair_spec_witness :
    0 < (generate_key_pair keccak_test pubkey_ser_test 1).private_key ∧
    (generate_key_pair keccak_test pubkey_ser_test 1).private_key < secp256k1_order ∧
    (generate_key_pair keccak_test pubkey_ser_test 1).address =
      '0' :: 'x' :: bytesToHex (((keccak_test ((pubkey_ser_test 1).drop 1)).drop 12).take 20) ∧
    (bytesToHex (((keccak_test ((pubkey_ser_test 1).drop 1)).drop 12).take 20)).length = 40 ∧
    (∀ c ∈ bytesToHex (((keccak_test ((pubkey_ser_test 1).drop 1)).drop 12).take 20),
      isLowerHexDigit c = true) :=
  generate_key_pair_spec keccak_test pubkey_ser_test 1
    (by constructor <;> decide) (by decide) (by decide)

/-- C6 counterexample: the address field stored in a concretely derived KeyPair
has length 42, not 40: it keeps the two characters 0 and x in front of the 40
hex characters, and x is not a hex digit. -/
theorem keypair_address_counterexample :
    (generate_key_pair keccak_test pubkey_ser_test 1).address.length = 42 ∧
    ¬ (generate_key_pair keccak_test pubkey_ser_test 1).address.length = 40 ∧
    (generate_key_pair keccak_test pubkey_ser_test 1).address.take 2 = '0' :: 'x' :: [] ∧
    isLowerHexDigit 'x' = false := by
  refine ⟨?_, ?_, ?_, rfl⟩ <;> decide

/-- C6 amended: the address field is stored internally as the two characters 0x
followed by exactly 40 lowercase hexadecimal characters, for every KeyPair the
deriver constructs (under the 32-byte digest contract of Keccak-256). -/
theorem keypair_address_format (keccak : List Nat → List Nat) (pubkeySer : Nat → List Nat)
    (sk : Nat) (hlen : (keccak ((pubkeySer sk).drop 1)).length = 32)
    (hbytes : ∀ b ∈ keccak ((pubkeySer sk).drop 1), b < 256) :
    ∃ body, (generate_key_pair keccak pubkeySer sk).address = '0' :: 'x' :: body ∧
      body.length = 40 ∧ ∀ c ∈ body, isLowerHexDigit c = true := by
  refine ⟨bytesToHex (((keccak ((pubkeySer sk).drop 1)).drop 12).take 20), rfl, ?_, ?_⟩
  · rw [bytesToHex_length, List.length_take, List.length_drop, hlen]
    omega
  · refine bytesToHex_mem_isLowerHexDigit ?_
    intro b hbm
    exact hbytes b (List.drop_subset 12 _ (List.take_subset 20 _ hbm))

/-- C6 amended witness: the format evaluated at a concrete scalar and digest. -/
theorem keypair_address_format_witness :
    ∃ body, (generate_key_pair keccak_test pubkey_ser_test 1).address = '0' :: 'x' :: body ∧
      body.length = 40 ∧ ∀ c ∈ body, isLowerHexDigit c = true :=
  keypair_address_format keccak_test pubkey_ser_test 1 (by decide) (by decide)

/-- main.rs lines 87-89: the shared search state: the found key pairs behind
the results mutex, the atomic attempt counter, and the atomic completed flag. -/
structure SearchState where
  results : List KeyPair
  attempts : Nat
  completed : Bool
  deriving DecidableEq

/-- main.rs lines 87-89: empty results, zero attempts, flag down. -/
def init_state : SearchState := { results := [], attempts := 0, completed := false }

/-- main.rs lines 133-150: the body of one worker-loop iteration after the
completed check: the freshly generated key pair kp is counted in attempts, and
when its address matches the criteria the worker, inside the single critical
section of the results mutex, appends kp only if the current length is below
quantity and raises the completed flag when the new length reaches quantity.
The none result models the panic of matches_criteria on a short address. -/
def worker_iter (quantity : Nat) (pfx sfx : Option (List Char)) (kp : KeyPair)
    (s : SearchState) : Option SearchState :=
  let s1 : SearchState := { s with attempts := s.attempts + 1 }
  match matches_criteria kp.address pfx sfx with
  | none => none
  | some m =>
      if m then
        if s1.results.length < quantity then
          let newResults := s1.results ++ [kp]
          some { s1 with
                 results := newResults,
                 completed := if quantity ≤ newResults.length then true else s1.completed }
        else some s1
      else some s1

/-- A run of the search: each element of kps is the key pair generated in one
worker iteration, executed in the order the workers entered the critical
section (each check-then-append is a single atomic step under the one lock, so
any concurrent schedule is some such sequence). -/
def run_steps (quantity : Nat) (pfx sfx : Option (List Char)) :
    List KeyPair → SearchState → Option SearchState
  | [], s => some s
  | kp :: kps, s =>
      match worker_iter quantity pfx sfx kp s with
      | none => none
      | some s' => run_steps quantity pfx sfx kps s'

/-- main.rs lines 127-151: a single worker loop with explicit fuel: each round
first checks the completed flag and exits when it is set, otherwise runs one
iteration on the key pair gen i and continues. none means the loop did not
terminate within fuel rounds (or a panic occurred). -/
def worker_loop (quantity : Nat) (pfx sfx : Option (List Char)) (gen : Nat → KeyPair) :
    Nat → Nat → SearchState → Option SearchState
  | 0, _, _ => none
  | fuel + 1, i, s =>
      if s.completed then some s
      else
        match worker_iter quantity pfx sfx (gen i) s with
        | none => none
        | some s' => worker_loop quantity pfx sfx gen fuel (i + 1) s'

/-- main.rs line 155: the unconditional completed store after the worker pool
returns. -/
def finish_store (s : SearchState) : SearchState := { s with completed := true }

/-- main.rs line 72: the thread count is the command-line value when given,
otherwise the CPU count; no validation is applied. -/
def resolve_num_threads (threads : Option Nat) (cpu_count : Nat) : Nat :=
  threads.getD cpu_count

/-- main.rs lines 70-90: entry to the search: resolve the thread count, then
initialize the shared state; the quantity is taken as-is (it only sizes the
vector's capacity) and nothing is rejected. -/
def search_entry (threads : Option Nat) (cpu_count quantity : Nat) : Nat × SearchState :=
  (resolve_num_threads threads cpu_count, init_state)

theorem worker_iter_length_le (quantity : Nat) (pfx sfx : Option (List Char)) (kp : KeyPair)
    {s s' : SearchState} (h : worker_iter quantity pfx sfx kp s = some s')
    (hle : s.results.length ≤ quantity) : s'.results.length ≤ quantity := by
  unfold worker_iter at h
  cases hm : matches_criteria kp.address pfx sfx with
  | none => simp [hm] at h
  | some m =>
      simp only [hm] at h
      split at h
      · split at h
        · cases h
          simp only [List.length_append, List.length_cons, List.length_nil]
          omega
        · cases h; exact hle
      · cases h; exact hle

theorem run_steps_length_le (quantity : Nat) (pfx sfx : Option (List Char))
    (kps : List KeyPair) {s s' : SearchState}
    (hrun : run_steps quantity pfx sfx kps s = some s')
    (hle : s.results.length ≤ quantity) : s'.results.length ≤ quantity := by
  induction kps generalizing s with
  | nil => cases hrun; exact hle
  | cons kp kps ih =>
      unfold run_steps at hrun
      cases hstep : worker_iter quantity pfx sfx kp s with
      | none => simp [hstep] at hrun
      | some t =>
          simp only [hstep] at hrun
          exact ih hrun (worker_iter_length_le quantity pfx sfx kp hstep hle)

/-- C3: the length of the shared results list never exceeds the target
quantity: every atomic check-then-append step preserves the bound, so after
any sequence of worker critical sections from a state within the bound the
results list is still within the bound. -/
theorem results_length_invariant (quantity : Nat) (pfx sfx : Option (List Char))
    (kps : List KeyPair) (s s' : SearchState)
    (hle : s.results.length ≤ quantity)
    (hrun : run_steps quantity pfx sfx kps s = some s') :
    s'.results.length ≤ quantity :=
  run_steps_length_le quantity pfx sfx kps hrun hle

/-- A key pair used to evaluate the model at concrete inputs. -/
def kp_test : KeyPair := { private_key := 1, address := '0' :: 'x' :: [] }

/-- C3 witness: a concrete two-step run at quantity one stays within bound. -/
theorem results_length_invariant_witness :
    ({ results := [kp_test], attempts := 2, completed := true } : SearchState).results.length ≤ 1 :=
  results_length_invariant 1 none none (kp_test :: kp_test :: []) init_state
    { results := [kp_test], attempts := 2, completed := true } (by decide) (by decide)

/-- The coordinator invariant tying the stop flag to the results length: the
flag is up exactly when the results have reached a positive target. -/
def stop_inv (quantity : Nat) (s : SearchState) : Prop :=
  s.results.length ≤ quantity ∧
  (s.completed = true ↔ (s.results.length = quantity ∧ 0 < quantity))

theorem worker_iter_stop_inv (quantity : Nat) (pfx sfx : Option (List Char)) (kp : KeyPair)
    {s s' : SearchState} (h : worker_iter quantity pfx sfx kp s = some s')
    (hinv : stop_inv quantity s) : stop_inv quantity s' := by
  obtain ⟨hle, hiff⟩ := hinv
  unfold worker_iter at h
  cases hm : matches_criteria kp.address pfx sfx with
  | none => simp [hm] at h
  | some m =>
      simp only [hm] at h
      split at h
      · split at h
        · cases h
          constructor
          · simp only [List.length_append, List.length_cons, List.length_nil]
            omega
          · simp only [List.length_append, List.length_cons, List.length_nil]
            constructor
            · intro hc
              split at hc
              · omega
              · have := hiff.mp hc
                omega
            · intro hc
              split
              · rfl
              · omega
        · cases h
          exact ⟨hle, hiff⟩
      · cases h
        exact ⟨hle, hiff⟩

theorem run_steps_stop_inv (quantity : Nat) (pfx sfx : Option (List Char))
    (kps : List KeyPair) {s s' : SearchState}
    (hrun : run_steps quantity pfx sfx kps s = some s')
    (hinv : stop_inv quantity s) : stop_inv quantity s' := by
  induction kps generalizing s with
  | nil => cases hrun; exact hinv
  | cons kp kps ih =>
      unfold run_steps at hrun
      cases hstep : worker_iter quantity pfx sfx kp s with
      | none => simp [hstep] at hrun
      | some t =>
          simp only [hstep] at hrun
          exact ih hrun (worker_iter_stop_inv quantity pfx sfx kp hstep hinv)

/-- C4: after any run from the initial state, the completed flag is up exactly
when a writer append made the results reach a positive target quantity; once
the flag is up a further worker iteration keeps it up and appends nothing, and
the final unconditional store of line 155 is idempotent: on an already
completed state it changes nothing. -/
theorem stop_flag_spec (quantity : Nat) (pfx sfx : Option (List Char)) (kps : List KeyPair)
    (s' : SearchState) (kp : KeyPair) (t t' : SearchState)
    (hrun : run_steps quantity pfx sfx kps init_state = some s')
    (hstep : worker_iter quantity pfx sfx kp t = some t')
    (hinv : stop_inv quantity t) (htc : t.completed = true) :
    (s'.completed = true ↔ (s'.results.length = quantity ∧ 0 < quantity)) ∧
    (t'.completed = true ∧ t'.results = t.results) ∧
    finish_store (finish_store t) = finish_store t ∧
    finish_store t = t := by
  have hinit : stop_inv quantity init_state := by
    constructor
    · simp [init_state]
    · simp [init_state]
      omega
  refine ⟨(run_steps_stop_inv quantity pfx sfx kps hrun hinit).2, ?_, rfl, ?_⟩
  · have hlen : t.results.length = quantity := (hinv.2.mp htc).1
    unfold worker_iter at hstep
    cases hm : matches_criteria kp.address pfx sfx with
    | none => simp [hm] at hstep
    | some m =>
        simp only [hm] at hstep
        split at hstep
        · split at hstep
          · omega
          · cases hstep; exact ⟨htc, rfl⟩
        · cases hstep; exact ⟨htc, rfl⟩
  · cases t
    simp only [finish_store]
    simp_all

/-- C4 witness: the flag characterization and idempotence at a concrete
one-element run and a concrete completed state. -/
theorem stop_flag_spec_witness :
    (({ results := [kp_test], attempts := 1, completed := true } : SearchState).completed = true ↔
      (({ results := [kp_test], attempts := 1, completed := true } : SearchState).results.length = 1 ∧
        0 < 1)) ∧
    (({ results := [kp_test], attempts := 2, completed := true } : SearchState).completed = true ∧
      ({ results := [kp_test], attempts := 2, completed := true } : SearchState).results =
        ({ results := [kp_test], attempts := 1, completed := true } : SearchState).results) ∧
    finish_store (finish_store { results := [kp_test], attempts := 1, completed := true }) =
      finish_store { results := [kp_test], attempts := 1, completed := true } ∧
    finish_store { results := [kp_test], attempts := 1, completed := true } =
      { results := [kp_test], attempts := 1, completed := true } :=
  stop_flag_spec 1 none none (kp_test :: [])
    { results := [kp_test], attempts := 1, completed := true } kp_test
    { results := [kp_test], attempts := 1, completed := true }
    { results := [kp_test], attempts := 2, completed := true }
    (by decide) (by decide) (by constructor <;> decide) (by decide)

/-- C7: with no criteria, a single worker, and target quantity one, the first
generated candidate matches, is appended, and raises the completed flag, so the
loop exits on its next flag check: the search terminates with exactly one total
attempt, holding exactly the first candidate. -/
theorem degenerate_single_worker (gen : Nat → KeyPair) (fuel : Nat) (body : List Char)
    (hgen : (gen 0).address = '0' :: 'x' :: body) (hfuel : 2 ≤ fuel) :
    worker_loop 1 none none gen fuel 0 init_state =
      some { results := [gen 0], attempts := 1, completed := true } := by
  obtain ⟨k, rfl⟩ := Nat.exists_eq_add_of_le hfuel
  have hm : matches_criteria (gen 0).address none none = some true := by
    rw [hgen]
    exact (matches_criteria_spec body none none).2
  rw [Nat.add_comm 2 k]
  show worker_loop 1 none none gen (k + 1 + 1) 0 init_state = _
  unfold worker_loop
  simp only [init_state, worker_iter, hm]
  norm_num
  unfold worker_loop
  simp

/-- C7 witness: the degenerate search evaluated with a concrete generator. -/
theorem degenerate_single_worker_witness :
    worker_loop 1 none none (fun _ => kp_test) 2 0 init_state =
      some { results := [kp_test], attempts := 1, completed := true } :=
  degenerate_single_worker (fun _ => kp_test) 2 [] rfl (by decide)

theorem worker_iter_quantity_zero (pfx sfx : Option (List Char)) (kp : KeyPair)
    {s s' : SearchState} (h : worker_iter 0 pfx sfx kp s = some s') :
    s'.results = s.results ∧ s'.completed = s.completed ∧ s'.attempts = s.attempts + 1 := by
  unfold worker_iter at h
  cases hm : matches_criteria kp.address pfx sfx with
  | none => simp [hm] at h
  | some m =>
      simp only [hm] at h
      split at h
      · split at h
        · omega
        · cases h; exact ⟨rfl, rfl, rfl⟩
      · cases h; exact ⟨rfl, rfl, rfl⟩

theorem matches_criteria_none_iff (address : List Char) (pfx sfx : Option (List Char)) :
    matches_criteria address pfx sfx = none ↔ sliceFromByte 2 address = none := by
  unfold matches_criteria
  cases sliceFromByte 2 address <;> simp

theorem worker_loop_quantity_zero (pfx sfx : Option (List Char)) (gen : Nat → KeyPair)
    (hgen : ∀ j, sliceFromByte 2 (gen j).address ≠ none) :
    ∀ fuel i s, s.completed = false → worker_loop 0 pfx sfx gen fuel i s = none := by
  intro fuel
  induction fuel with
  | zero => intro i s _; rfl
  | succ fuel ih =>
      intro i s hs
      unfold worker_loop
      rw [hs]
      simp only [Bool.false_eq_true, if_false]
      cases hstep : worker_iter 0 pfx sfx (gen i) s with
      | none =>
          exfalso
          unfold worker_iter at hstep
          cases hm : matches_criteria (gen i).address pfx sfx with
          | none => exact hgen i ((matches_criteria_none_iff _ pfx sfx).mp hm)
          | some m =>
              simp only [hm] at hstep
              split at hstep
              · split at hstep
                · cases hstep
                · cases hstep
              · cases hstep
      | some s' =>
          have hfix := worker_iter_quantity_zero pfx sfx (gen i) hstep
          exact ih (i + 1) s' (hfix.2.1.trans hs)

/-- C10: with target quantity zero the append guard never holds: a worker
iteration leaves the results and the completed flag unchanged (only attempts
grows), so no worker ever appends or raises the flag, and the worker loop
started on a non-completed state returns within no amount of fuel: the search
does not terminate. -/
theorem quantity_zero_no_termination (pfx sfx : Option (List Char)) (gen : Nat → KeyPair)
    (fuel i : Nat) (s : SearchState) (kps : List KeyPair) (t t' : SearchState)
    (hgen : ∀ j, sliceFromByte 2 (gen j).address ≠ none)
    (hs : s.completed = false)
    (hrun : run_steps 0 pfx sfx kps t = some t') :
    worker_loop 0 pfx sfx gen fuel i s = none ∧
    t'.results = t.results ∧ t'.completed = t.completed := by
  refine ⟨worker_loop_quantity_zero pfx sfx gen hgen fuel i s hs, ?_⟩
  induction kps generalizing t with
  | nil => cases hrun; exact ⟨rfl, rfl⟩
  | cons kp kps ih =>
      unfold run_steps at hrun
      cases hstep : worker_iter 0 pfx sfx kp t with
      | none => simp [hstep] at hrun
      | some u =>
          simp only [hstep] at hrun
          have h1 := worker_iter_quantity_zero pfx sfx kp hstep
          have h2 := ih u hrun
          exact ⟨h2.1.trans h1.1, h2.2.trans h1.2.1⟩

/-- C10 witness: a concrete worker loop at quantity zero burns all its fuel and
a concrete one-step run changes neither the results nor the flag. -/
theorem quantity_zero_no_termination_witness :
    worker_loop 0 none none (fun _ => kp_test) 3 0 init_state = none ∧
    ({ results := [], attempts := 1, completed := false } : SearchState).results =
      init_state.results ∧
    ({ results := [], attempts := 1, completed := false } : SearchState).completed =
      init_state.completed :=
  quantity_zero_no_termination none none (fun _ => kp_test) 3 0 init_state
    (kp_test :: []) init_state { results := [], attempts := 1, completed := false }
    (by intro j; show sliceFromByte 2 kp_test.address ≠ none; decide) (by decide) (by decide)

/-- C5 counterexample: the invalid configuration of zero threads and zero
target quantity is not rejected: entry resolves the thread count to the given
zero, hands back the ordinary initial shared state, and the search then enters
the worker loop (which, at quantity zero, burns any amount of fuel) instead of
surfacing a configuration fault. -/
theorem config_validation_counterexample :
    search_entry (some 0) 8 0 = (0, init_state) ∧
    worker_loop 0 none none (fun _ => kp_test) 5 0 (search_entry (some 0) 8 0).2 = none := by
  constructor
  · rfl
  · decide

/-- C5 amended: no configuration validation exists: for every thread count
(zero included) and a target quantity of zero, entry unconditionally resolves
the thread count and initializes the shared state, and the subsequent worker
loop never terminates. -/
theorem config_accepted_without_validation (threads : Option Nat) (cpu_count : Nat)
    (gen : Nat → KeyPair) (fuel i : Nat)
    (hgen : ∀ j, sliceFromByte 2 (gen j).address ≠ none) :
    search_entry threads cpu_count 0 =
      (resolve_num_threads threads cpu_count, init_state) ∧
    worker_loop 0 none none gen fuel i (search_entry threads cpu_count 0).2 = none :=
  ⟨rfl, worker_loop_quantity_zero none none gen hgen fuel i init_state rfl⟩

/-- C5 amended witness: entry with zero threads and zero quantity evaluated
concretely. -/
theorem config_accepted_without_validation_witness :
    search_entry (some 0) 8 0 = (resolve_num_threads (some 0) 8, init_state) ∧
    worker_loop 0 none none (fun _ => kp_test) 4 0 (search_entry (some 0) 8 0).2 = none :=
  config_accepted_without_validation (some 0) 8 (fun _ => kp_test) 4 0
    (by intro j; show sliceFromByte 2 kp_test.address ≠ none; decide)

end VanityEth
